import Mathlib

/-!
# Verification of kgx utility functions (`kgx/utils/kgx_utils.py`)

Shallow embedding of the property-record merging logic (`prepare_data_dict`),
the CURIE shape heuristic (`is_curie`), the URI contraction / CURIE expansion
wrappers (`contract` / `expand`), the node filtering pass
(`apply_node_filters`) and the toolkit singleton accessor (`get_toolkit`).

Python values stored in a property record are modelled as either a scalar
string or a list of strings (`PValue`); a record (Python `dict`) is an
association list with insertion order.  Since Python lists are mutable heap
objects and the source aliases `d1`'s lists into the result before extending
them in place, `prepare_data_dict` is modelled as returning both the new
merged record and the post-call state of `d1`.
-/

/-- A Python property value: either a scalar or a list of scalars. -/
inductive PValue where
  | s : String → PValue
  | l : List String → PValue
deriving DecidableEq, Repr

/-- A property record: a Python dict in insertion order. -/
abbrev Record := List (String × PValue)

/-- Dict lookup on an association list (first match wins). -/
def alookup {β : Type} : List (String × β) → String → Option β
  | [], _ => none
  | (k, v) :: rest, key => if k = key then some v else alookup rest key

/-- The static `is_property_multivalued` table from `kgx_utils.py`. -/
def is_property_multivalued : List (String × Bool) :=
  [("biolink:id", false),
   ("biolink:subject", false),
   ("biolink:object", false),
   ("biolink:predicate", false),
   ("biolink:description", false),
   ("biolink:synonym", true),
   ("biolink:in_taxon", false),
   ("biolink:same_as", true),
   ("biolink:name", false),
   ("biolink:has_evidence", false),
   ("biolink:provided_by", true),
   ("biolink:category", true),
   ("biolink:publications", true),
   ("biolink:type", false),
   ("biolink:relation", false)]

/-- `CORE_NODE_PROPERTIES` from the source. -/
def CORE_NODE_PROPERTIES : List String := ["biolink:id", "biolink:name"]

/-- `CORE_EDGE_PROPERTIES` from the source. -/
def CORE_EDGE_PROPERTIES : List String :=
  ["biolink:id", "biolink:subject", "biolink:predicate", "biolink:object", "biolink:relation"]

/-- `key in CORE_NODE_PROPERTIES or key in CORE_EDGE_PROPERTIES`. -/
def isCore (key : String) : Bool :=
  CORE_NODE_PROPERTIES.contains key || CORE_EDGE_PROPERTIES.contains key

/-- Merge for a list-valued existing entry of a declared-multivalued key
(`new_data[key] += [x for x in new_value if x not in new_data[key]]`, resp.
`if new_value not in new_data[key]: new_data[key].append(new_value)`).
The comprehension is evaluated before the extension, so membership is tested
against `old` only. -/
def mergeNoDup (old : List String) (nv : PValue) : List String :=
  match nv with
  | PValue.l xs => old ++ xs.filter (fun x => !(old.contains x))
  | PValue.s x => if old.contains x then old else old ++ [x]

/-- Merge for a list-valued existing entry of a declared-single-valued key
(`new_data[key] += [x for x in new_value]`, resp. an unconditional append). -/
def mergeDup (old : List String) (nv : PValue) : List String :=
  match nv with
  | PValue.l xs => old ++ xs
  | PValue.s x => old ++ [x]

/-- Merge used in the remaining branches: incoming lists are filtered against
`old`, but an incoming scalar is appended unconditionally. -/
def mergeMixed (old : List String) (nv : PValue) : List String :=
  match nv with
  | PValue.l xs => old ++ xs.filter (fun x => !(old.contains x))
  | PValue.s x => old ++ [x]

/-- `[x for x in new_value]` when the incoming value is a list, `[new_value]`
otherwise (lines 495-498 of the source). -/
def toListVal : PValue → List String
  | PValue.l xs => xs
  | PValue.s x => [x]

/-- One iteration of the `for key, value in d2.items()` loop, reduced to the
data it depends on: the key, the existing value (if any) under that key in
`d1`, and the (already copied) incoming value.  Returns the entry written to
`new_data` (`none` when the core-property guard fires and nothing is written)
and, when the branch aliases `d1[key]` into `new_data[key]` and extends it in
place, the value `d1[key]` holds afterwards (`none` when `d1` is untouched). -/
def processKeyVal (preserve : Bool) (key : String) (oldOpt : Option PValue) (nv : PValue) :
    Option PValue × Option PValue :=
  match alookup is_property_multivalued key with
  | some true =>
    match oldOpt with
    | some (PValue.l o) =>
      (some (PValue.l (mergeNoDup o nv)), some (PValue.l (mergeNoDup o nv)))
    | some (PValue.s o) =>
      if isCore key then (none, none)
      else (some (PValue.l (mergeNoDup [o] nv)), none)
    | none => (some (PValue.l (toListVal nv)), none)
  | some false =>
    match oldOpt with
    | some (PValue.l o) =>
      (some (PValue.l (mergeDup o nv)), some (PValue.l (mergeDup o nv)))
    | some (PValue.s o) =>
      if isCore key then (none, none)
      else if preserve then (some (PValue.l (mergeMixed [o] nv)), none)
      else (some nv, none)
    | none => (some nv, none)
  | none =>
    match oldOpt with
    | some old =>
      if isCore key then (none, none)
      else
        match old with
        | PValue.l o =>
          (some (PValue.l (mergeMixed o nv)), some (PValue.l (mergeMixed o nv)))
        | PValue.s o =>
          if preserve then (some (PValue.l (mergeMixed [o] nv)), none)
          else (some nv, none)
    | none => (some nv, none)

/-- Replace the value of the first entry holding `key` (the dict slot). -/
def updateFirst (key : String) (v : PValue) : Record → Record
  | [] => []
  | (k, w) :: rest => if k = key then (k, v) :: rest else (k, w) :: updateFirst key v rest

/-- The `for key, value in d2.items()` loop: threads the accumulating
`new_data` and the (possibly mutated) state of `d1`. -/
def ppLoop (preserve : Bool) : List (String × PValue) → Record → Record → Record × Record
  | [], nd, d1c => (nd, d1c)
  | (k, v) :: rest, nd, d1c =>
    let pr := processKeyVal preserve k (alookup d1c k) v
    let nd' := match pr.1 with
      | some w => nd ++ [(k, w)]
      | none => nd
    let d1n := match pr.2 with
      | some w => updateFirst k w d1c
      | none => d1c
    ppLoop preserve rest nd' d1n

/-- `prepare_data_dict(d1, d2, preserve)`: returns the merged record together
with the post-call state of `d1` (the source mutates `d1`'s list values in
place in the aliasing branches).  The trailing loop carries through every key
of (the mutated) `d1` not already present in `new_data`. -/
def prepare_data_dict (d1 d2 : Record) (preserve : Bool) : Record × Record :=
  let r := ppLoop preserve d2 [] d1
  (r.1 ++ r.2.filter (fun kv => (alookup r.1 kv.1).isNone), r.2)

/-- Character class of the first regex group of `is_curie`: `[^ <()>:]`. -/
def curieHeadOk (c : Char) : Bool :=
  !(c = ' ' || c = '<' || c = '(' || c = ')' || c = '>' || c = ':')

/-- Character class of the second regex group of `is_curie`: `[^/ :]`. -/
def curieTailOk (c : Char) : Bool :=
  !(c = '/' || c = ' ' || c = ':')

/-- One full-string match of the regex `^[^ <()>:]*:[^/ :]+$` (without the
end-anchor's trailing-newline allowance).  Both character classes exclude the
colon, so a match splits the string at its first colon. -/
def curieCore (l : List Char) : Bool :=
  match l.dropWhile (fun c => !(c = ':')) with
  | c :: q =>
    decide (c = ':') && (l.takeWhile (fun c => !(c = ':'))).all curieHeadOk
      && !q.isEmpty && q.all curieTailOk
  | [] => false

/-- `is_curie(s)`: `re.match(r"^[^ <()>:]*:[^/ :]+$", s)`.  Python's `$`
also matches just before a trailing newline, hence the second disjunct. -/
def is_curie (s : String) : Bool :=
  curieCore s.data ||
    (match s.data.reverse with
     | c :: t => decide (c = '\n') && curieCore t.reverse
     | [] => false)

/-- Modelled from the spec: the CURIE pattern as documented — "one or more
non-space, non-angle-bracket, non-colon characters, then exactly one colon,
then one or more non-space, non-colon characters".  Head class. -/
def docHeadOk (c : Char) : Bool :=
  !(c = ' ' || c = '<' || c = '>' || c = ':')

/-- Modelled from the spec: tail class of the documented CURIE pattern. -/
def docTailOk (c : Char) : Bool :=
  !(c = ' ' || c = ':')

/-- Modelled from the spec: full-string match of the documented CURIE
pattern (both classes exclude the colon, so there is exactly one colon and
the split is at it). -/
def docCuriePat (l : List Char) : Bool :=
  match l.dropWhile (fun c => !(c = ':')) with
  | c :: q =>
    decide (c = ':') && !(l.takeWhile (fun c => !(c = ':'))).isEmpty
      && (l.takeWhile (fun c => !(c = ':'))).all docHeadOk
      && !q.isEmpty && q.all docTailOk
  | [] => false

/-- First element of a list, or a default: models `curie_list[0]` guarded by
a non-emptiness check. -/
def firstOr (l : List String) (d : String) : String :=
  match l with
  | c :: _ => c
  | [] => d

/-- `contract(uri, prefix_maps, fallback)`.  The external
`prefixcommons.curie_util.contract_uri` and the two default JSON-LD context
maps are parameters (`cu`, `dmaps`); `pm` is the `prefix_maps` argument,
where both `none` (Python `None`) and `some []` are falsy for the
`if prefix_maps:` test. -/
def contract {M : Type} (cu : String → List M → List String) (dmaps : List M)
    (uri : String) (pm : Option (List M)) (fb : Bool) : String :=
  match pm with
  | some (m :: ms) =>
    match cu uri (m :: ms) with
    | [] => if fb then firstOr (cu uri dmaps) uri else uri
    | c :: _ => c
  | _ => firstOr (cu uri dmaps) uri

/-- `expand(curie, prefix_maps, fallback)`; the external `expand_uri`
returns the CURIE itself on a miss. -/
def expand {M : Type} (eu : String → List M → String) (dmaps : List M)
    (curie : String) (pm : Option (List M)) (fb : Bool) : String :=
  match pm with
  | some (m :: ms) =>
    let uri := eu curie (m :: ms)
    if uri = curie && fb then eu curie dmaps else uri
  | _ => eu curie dmaps

/-- The `bmt.Toolkit` instance, abstracted to the schema it was built from. -/
structure Toolkit where
  schema : String
deriving DecidableEq, Repr

/-- `if not schema:` — Python falsiness of an `Optional[str]`. -/
def schemaFalsy : Option String → Bool
  | none => true
  | some s => decide (s = "")

/-- `get_toolkit(schema)`: the module-level global `toolkit` is threaded as
explicit state (`st` in, second component out); `ds` is the configured
default `config['biolink-model']`. -/
def get_toolkit (ds : String) (st : Option Toolkit) (sch : Option String) :
    Toolkit × Option Toolkit :=
  match st with
  | some tk => (tk, some tk)
  | none =>
    let s := if schemaFalsy sch then ds else sch.getD ds
    (⟨s⟩, some ⟨s⟩)

/-- Bool test for `xs` being an initial segment of `ys`. -/
def initSeg : List String → List String → Bool
  | [], _ => true
  | _ :: _, [] => false
  | a :: xs, b :: ys => decide (a = b) && initSeg xs ys

/-- `p` is a (not necessarily proper) contiguous beginning of `q`, character
by character. -/
def charsStart : List Char → List Char → Bool
  | [], _ => true
  | _ :: _, [] => false
  | a :: xs, b :: ys => decide (a = b) && charsStart xs ys

/-- `x in y` for Python strings: substring containment. -/
def charsInfix (xs : List Char) : List Char → Bool
  | [] => xs.isEmpty
  | c :: t => charsStart xs (c :: t) || charsInfix xs t

/-- `x in node_data[k]`: membership for a list value, substring test for a
scalar (string) value. -/
def valueHas (val : PValue) (x : String) : Bool :=
  match val with
  | PValue.l xs => xs.contains x
  | PValue.s str => charsInfix x.data str.data

/-- A graph restricted to what `apply_node_filters` touches: the nodes with
their property records, in iteration order. -/
abbrev Graph := List (String × Record)

/-- The `for k, v in node_filters.items()` loop for one node.  Only the
`biolink:category` filter key is inspected; `node_data[k]` is a `KeyError`
(modelled as `none`) — but `any(x in node_data[k] for x in v)` never
evaluates `node_data[k]` when `v` is empty, and an empty generator makes
`any` false. -/
def passLoop (nd : Record) : List (String × List String) → Bool → Option Bool
  | [], acc => some acc
  | (k, v) :: rest, acc =>
    if k = "biolink:category" then
      match v with
      | [] => passLoop nd rest (acc && false)
      | _ :: _ =>
        match alookup nd k with
        | none => none
        | some val => passLoop nd rest (acc && v.any (fun x => valueHas val x))
    else passLoop nd rest acc

/-- `pass_filter` for one node, starting from `True`. -/
def nodePassFilters (fs : List (String × List String)) (nd : Record) : Option Bool :=
  passLoop nd fs true

/-- Phase one of `apply_node_filters`: collect `nodes_to_remove` in node
iteration order; a `KeyError` (modelled as `none`) aborts the whole call. -/
def collectFails (fs : List (String × List String)) : Graph → Option (List String)
  | [] => some []
  | (n, nd) :: rest =>
    match nodePassFilters fs nd with
    | none => none
    | some b =>
      match collectFails fs rest with
      | none => none
      | some fails => some (if b then fails else n :: fails)

/-- `graph.remove_node(n)`. -/
def removeNode (g : Graph) (n : String) : Graph :=
  g.filter (fun kv => !(kv.1 = n))

/-- `apply_node_filters(graph, node_filters)`: two-phase removal — collect
all failing nodes, then remove them one by one.  `none` models a propagated
`KeyError`. -/
def apply_node_filters (g : Graph) (fs : List (String × List String)) : Option Graph :=
  match collectFails fs g with
  | none => none
  | some fails => some (fails.foldl removeNode g)

/-- One value may evolve into another during the call: scalars never change,
lists can only be extended in place at the end. -/
def valExt : PValue → PValue → Bool
  | PValue.s x, PValue.s y => decide (x = y)
  | PValue.l o, PValue.l n => initSeg o n
  | _, _ => false

/-- Lift of `valExt` to an optional binding: a key neither appears nor
disappears, and its value can only evolve per `valExt`. -/
def extB : Option PValue → Option PValue → Bool
  | none, none => true
  | some v, some w => valExt v w
  | _, _ => false

/-- The shape actually accepted by one regex match: zero or more characters
from `[^ <()>:]`, a colon, then one or more characters from `[^/ :]`. -/
def CurieShape (l : List Char) : Prop :=
  ∃ p q, l = p ++ ':' :: q ∧ (∀ c ∈ p, curieHeadOk c = true) ∧ q ≠ [] ∧
    (∀ c ∈ q, curieTailOk c = true)

/-- Modelled from the spec: the de-duplicated ordered union ("preserving
first-seen order, no duplicates") of the existing and incoming values. -/
def specOrderedUnion (a b : List String) : List String :=
  (a ++ b).foldl (fun acc x => if acc.contains x then acc else acc ++ [x]) []

/-- Does a node record hold a list-valued `biolink:category`? -/
def hasListCat (nd : Record) : Bool :=
  match alookup nd "biolink:category" with
  | some (PValue.l _) => true
  | _ => false

/-- A node passes the category filter iff its category list meets the
allowed set. -/
def catIntersects (allowed : List String) (nd : Record) : Bool :=
  match alookup nd "biolink:category" with
  | some (PValue.l cs) => allowed.any (fun x => cs.contains x)
  | _ => false

/-- A concrete stand-in for `contract_uri` used to exercise `contract`:
finds matches exactly when the map list contains the marker `1`. -/
def cuEx : String → List Nat → List String :=
  fun _ ms => if ms.contains 1 then ["a:1"] else []

/-- A concrete stand-in for `expand_uri` used to exercise `expand`: expands
exactly when the map list contains the marker `1`, else echoes the CURIE. -/
def euEx : String → List Nat → String :=
  fun c ms => if ms.contains 1 then "http://x/1" else c

/-! ## Association-list lemmas -/

theorem alookup_append {β : Type} (a b : List (String × β)) (j : String) :
    alookup (a ++ b) j = match alookup a j with
      | some v => some v
      | none => alookup b j := by
  induction a with
  | nil => simp [alookup]
  | cons kv rest ih =>
    obtain ⟨k, v⟩ := kv
    by_cases h : k = j <;> simp [alookup, h, ih]

theorem alookup_filterKeys {β : Type} (p : String → Bool) (r : List (String × β)) (j : String) :
    alookup (r.filter (fun kv => p kv.1)) j = if p j then alookup r j else none := by
  induction r with
  | nil => simp [alookup]
  | cons kv rest ih =>
    obtain ⟨k, v⟩ := kv
    by_cases h : k = j
    · subst h
      by_cases hp : p k <;> simp [alookup, hp, ih]
    · by_cases hp : p k <;> simp [alookup, h, hp, ih]

theorem alookup_updateFirst_ne (k j : String) (v : PValue) (r : Record) (h : j ≠ k) :
    alookup (updateFirst k v r) j = alookup r j := by
  induction r with
  | nil => simp [updateFirst]
  | cons kv rest ih =>
    obtain ⟨k', w⟩ := kv
    by_cases hk : k' = k
    · subst hk
      have hj : ¬ k' = j := fun h' => h h'.symm
      simp [updateFirst, alookup, hj]
    · simp only [updateFirst, if_neg hk]
      by_cases hj : k' = j
      · simp [alookup, hj]
      · simp [alookup, hj, ih]

theorem alookup_updateFirst_self (k : String) (v : PValue) (r : Record)
    (h : (alookup r k).isSome) : alookup (updateFirst k v r) k = some v := by
  induction r with
  | nil => simp [alookup] at h
  | cons kv rest ih =>
    obtain ⟨k', w⟩ := kv
    by_cases hk : k' = k
    · subst hk
      simp [updateFirst, alookup]
    · simp [alookup, hk] at h
      simp [updateFirst, alookup, hk, ih h]

theorem updateFirst_keys (k : String) (v : PValue) (r : Record) :
    (updateFirst k v r).map Prod.fst = r.map Prod.fst := by
  induction r with
  | nil => rfl
  | cons kv rest ih =>
    obtain ⟨k', w⟩ := kv
    by_cases hk : k' = k <;> simp [updateFirst, hk, ih]

theorem alookup_eq_none_of_forall {β : Type} (l : List (String × β)) (j : String)
    (h : ∀ kv ∈ l, kv.1 ≠ j) : alookup l j = none := by
  induction l with
  | nil => rfl
  | cons kv rest ih =>
    obtain ⟨k, v⟩ := kv
    have hk : k ≠ j := h (k, v) (by simp)
    simp only [alookup, if_neg hk]
    exact ih (fun kv hkv => h kv (by simp [hkv]))

theorem forall_of_alookup_eq_none {β : Type} (l : List (String × β)) (j : String)
    (h : alookup l j = none) : ∀ kv ∈ l, kv.1 ≠ j := by
  induction l with
  | nil => simp
  | cons kv rest ih =>
    obtain ⟨k, v⟩ := kv
    by_cases hk : k = j
    · simp [alookup, hk] at h
    · simp only [alookup, if_neg hk] at h
      intro kv' hkv'
      rcases List.mem_cons.mp hkv' with rfl | hmem
      · exact hk
      · exact ih h kv' hmem

/-! ## Structure of a single merge step -/

theorem mergeNoDup_shape (o : List String) (nv : PValue) : ∃ ext, mergeNoDup o nv = o ++ ext := by
  cases nv with
  | l xs => exact ⟨_, rfl⟩
  | s x =>
    by_cases h : o.contains x
    · exact ⟨[], by simp only [mergeNoDup, if_pos h, List.append_nil]⟩
    · exact ⟨[x], by simp only [mergeNoDup, if_neg h]⟩

theorem mergeDup_shape (o : List String) (nv : PValue) : ∃ ext, mergeDup o nv = o ++ ext := by
  cases nv with
  | l xs => exact ⟨_, rfl⟩
  | s x => exact ⟨_, rfl⟩

theorem mergeMixed_shape (o : List String) (nv : PValue) : ∃ ext, mergeMixed o nv = o ++ ext := by
  cases nv with
  | l xs => exact ⟨_, rfl⟩
  | s x => exact ⟨_, rfl⟩

/-- The d1-mutation component of a merge step is `none` unless the existing
value is a list, in which case both components are that list extended. -/
theorem processKeyVal_snd (p : Bool) (k : String) (o : Option PValue) (nv : PValue) :
    (processKeyVal p k o nv).2 = none ∨
    ∃ os ext, o = some (PValue.l os) ∧
      (processKeyVal p k o nv).1 = some (PValue.l (os ++ ext)) ∧
      (processKeyVal p k o nv).2 = some (PValue.l (os ++ ext)) := by
  rcases hm : alookup is_property_multivalued k with _ | b
  · rcases o with _ | v
    · left; simp [processKeyVal, hm]
    · by_cases hc : isCore k
      · left; simp [processKeyVal, hm, hc]
      · rcases v with x | xs
        · left; cases p <;> simp [processKeyVal, hm, hc]
        · right
          obtain ⟨ext, he⟩ := mergeMixed_shape xs nv
          exact ⟨xs, ext, rfl, by simp [processKeyVal, hm, hc, he]⟩
  · rcases o with _ | v
    · left; cases b <;> simp [processKeyVal, hm]
    · rcases v with x | xs
      · left; cases b <;> by_cases hc : isCore k <;> by_cases hp : p = true <;>
          simp [processKeyVal, hm, hc, hp]
      · cases b
        · right
          obtain ⟨ext, he⟩ := mergeDup_shape xs nv
          exact ⟨xs, ext, rfl, by simp [processKeyVal, hm, he]⟩
        · right
          obtain ⟨ext, he⟩ := mergeNoDup_shape xs nv
          exact ⟨xs, ext, rfl, by simp [processKeyVal, hm, he]⟩

/-- If the step writes nothing to `new_data`, it also leaves `d1` alone. -/
theorem processKeyVal_fst_none (p : Bool) (k : String) (o : Option PValue) (nv : PValue)
    (h : (processKeyVal p k o nv).1 = none) : (processKeyVal p k o nv).2 = none := by
  rcases processKeyVal_snd p k o nv with h2 | ⟨os, ext, _, h1, _⟩
  · exact h2
  · rw [h1] at h
    exact absurd h (by simp)

/-- A step with an absent existing value never mutates `d1`. -/
theorem processKeyVal_snd_isSome (p : Bool) (k : String) (o : Option PValue) (nv : PValue)
    (h : (processKeyVal p k o nv).2 ≠ none) : ∃ os, o = some (PValue.l os) := by
  rcases processKeyVal_snd p k o nv with h2 | ⟨os, ext, ho, _, _⟩
  · exact absurd h2 h
  · exact ⟨os, ho⟩

/-! ## Behaviour of the d2 loop -/

theorem alookup_append_single_ne {β : Type} (nd : List (String × β)) (k j : String) (w : β)
    (h : k ≠ j) : alookup (nd ++ [(k, w)]) j = alookup nd j := by
  rw [alookup_append]
  cases alookup nd j <;> simp [alookup, h]

/-- Keys not occurring in the remaining `d2` entries are untouched by the
loop, both in `new_data` and in `d1`. -/
theorem ppLoop_notin (p : Bool) (l : List (String × PValue)) (nd d1c : Record) (j : String)
    (h : ∀ kv ∈ l, kv.1 ≠ j) :
    alookup (ppLoop p l nd d1c).1 j = alookup nd j ∧
    alookup (ppLoop p l nd d1c).2 j = alookup d1c j := by
  induction l generalizing nd d1c with
  | nil => exact ⟨rfl, rfl⟩
  | cons kv rest ih =>
    obtain ⟨k, v⟩ := kv
    have hk : k ≠ j := h (k, v) (by simp)
    have hrest : ∀ kv ∈ rest, kv.1 ≠ j := fun kv hkv => h kv (by simp [hkv])
    rcases hpr : processKeyVal p k (alookup d1c k) v with ⟨e, u⟩
    simp only [ppLoop, hpr]
    rcases e with _ | w <;> rcases u with _ | w'
    · exact ih nd d1c hrest
    · constructor
      · exact (ih nd (updateFirst k w' d1c) hrest).1
      · rw [(ih nd (updateFirst k w' d1c) hrest).2]
        exact alookup_updateFirst_ne k j w' d1c (fun hj => hk hj.symm)
    · constructor
      · rw [(ih (nd ++ [(k, w)]) d1c hrest).1]
        exact alookup_append_single_ne nd k j w hk
      · exact (ih (nd ++ [(k, w)]) d1c hrest).2
    · constructor
      · rw [(ih (nd ++ [(k, w)]) (updateFirst k w' d1c) hrest).1]
        exact alookup_append_single_ne nd k j w hk
      · rw [(ih (nd ++ [(k, w)]) (updateFirst k w' d1c) hrest).2]
        exact alookup_updateFirst_ne k j w' d1c (fun hj => hk hj.symm)

/-- What the loop leaves under a key that does occur in `d2` (keys unique):
`new_data` holds exactly the entry the merge step produced for the value of
`d1` at that moment, and `d1` holds the mutated list when the step aliased. -/
theorem ppLoop_lookup (p : Bool) (l : List (String × PValue)) (nd d1c : Record)
    (j : String) (v : PValue)
    (hnd : (l.map Prod.fst).Nodup) (hj : alookup l j = some v) (h0 : alookup nd j = none) :
    alookup (ppLoop p l nd d1c).1 j = (processKeyVal p j (alookup d1c j) v).1 ∧
    alookup (ppLoop p l nd d1c).2 j =
      (match (processKeyVal p j (alookup d1c j) v).2 with
        | some w => some w
        | none => alookup d1c j) := by
  induction l generalizing nd d1c with
  | nil => exact absurd hj (by simp [alookup])
  | cons kv rest ih =>
    obtain ⟨k, w0⟩ := kv
    have htail : (rest.map Prod.fst).Nodup := (List.nodup_cons.mp hnd).2
    by_cases hk : k = j
    · subst hk
      have hv : w0 = v := by
        simpa [alookup] using hj
      subst hv
      have hnotin : ∀ kv ∈ rest, kv.1 ≠ k := by
        intro q hq hqk
        have hmem : k ∈ rest.map Prod.fst := hqk ▸ List.mem_map_of_mem Prod.fst hq
        exact (List.nodup_cons.mp hnd).1 hmem
      rcases hpr : processKeyVal p k (alookup d1c k) w0 with ⟨e, u⟩
      simp only [ppLoop, hpr]
      rcases e with _ | w <;> rcases u with _ | w'
      · obtain ⟨ha, hb⟩ := ppLoop_notin p rest nd d1c k hnotin
        exact ⟨by rw [ha, h0], by rw [hb]⟩
      · obtain ⟨ha, hb⟩ := ppLoop_notin p rest nd (updateFirst k w' d1c) k hnotin
        have hsome : (alookup d1c k).isSome := by
          obtain ⟨os, hos⟩ := processKeyVal_snd_isSome p k (alookup d1c k) w0
            (by rw [hpr]; simp)
          rw [hos]; rfl
        exact ⟨by rw [ha, h0], by rw [hb, alookup_updateFirst_self k w' d1c hsome]⟩
      · obtain ⟨ha, hb⟩ := ppLoop_notin p rest (nd ++ [(k, w)]) d1c k hnotin
        refine ⟨by rw [ha, alookup_append, h0]; simp [alookup], by rw [hb]⟩
      · obtain ⟨ha, hb⟩ := ppLoop_notin p rest (nd ++ [(k, w)]) (updateFirst k w' d1c) k hnotin
        have hsome : (alookup d1c k).isSome := by
          obtain ⟨os, hos⟩ := processKeyVal_snd_isSome p k (alookup d1c k) w0
            (by rw [hpr]; simp)
          rw [hos]; rfl
        refine ⟨by rw [ha, alookup_append, h0]; simp [alookup],
          by rw [hb, alookup_updateFirst_self k w' d1c hsome]⟩
    · have hj' : alookup rest j = some v := by
        simpa [alookup, hk] using hj
      rcases hpr : processKeyVal p k (alookup d1c k) w0 with ⟨e, u⟩
      simp only [ppLoop, hpr]
      rcases e with _ | w <;> rcases u with _ | w'
      · exact ih nd d1c htail hj' h0
      · have hu : alookup (updateFirst k w' d1c) j = alookup d1c j :=
          alookup_updateFirst_ne k j w' d1c (fun h => hk h.symm)
        obtain ⟨ha, hb⟩ := ih nd (updateFirst k w' d1c) htail hj' h0
        rw [hu] at ha hb
        exact ⟨ha, hb⟩
      · have hn : alookup (nd ++ [(k, w)]) j = none := by
          rw [alookup_append_single_ne nd k j w hk, h0]
        exact ih (nd ++ [(k, w)]) d1c htail hj' hn
      · have hn : alookup (nd ++ [(k, w)]) j = none := by
          rw [alookup_append_single_ne nd k j w hk, h0]
        have hu : alookup (updateFirst k w' d1c) j = alookup d1c j :=
          alookup_updateFirst_ne k j w' d1c (fun h => hk h.symm)
        obtain ⟨ha, hb⟩ := ih (nd ++ [(k, w)]) (updateFirst k w' d1c) htail hj' hn
        rw [hu] at ha hb
        exact ⟨ha, hb⟩

/-- Value of the merged record under a key occurring in `d2` (keys unique):
the entry the merge step produces from `d1`'s existing value, or — when the
core guard discards the incoming value — the carried-through `d1` value. -/
theorem pdd_lookup (d1 d2 : Record) (p : Bool) (j : String) (v : PValue)
    (hnd : (d2.map Prod.fst).Nodup) (hj : alookup d2 j = some v) :
    alookup (prepare_data_dict d1 d2 p).1 j =
      (match (processKeyVal p j (alookup d1 j) v).1 with
        | some w => some w
        | none => alookup d1 j) := by
  obtain ⟨ha, hb⟩ := ppLoop_lookup p d2 [] d1 j v hnd hj rfl
  unfold prepare_data_dict
  rcases he : (processKeyVal p j (alookup d1 j) v).1 with _ | w
  · have hu : (processKeyVal p j (alookup d1 j) v).2 = none :=
      processKeyVal_fst_none p j (alookup d1 j) v he
    rw [alookup_append]
    rw [he] at ha
    rw [hu] at hb
    rw [ha]
    simp only []
    have hfil := alookup_filterKeys
      (fun k => (alookup (ppLoop p d2 [] d1).1 k).isNone) (ppLoop p d2 [] d1).2 j
    simp only at hfil
    rw [hfil, if_pos (by rw [ha]; rfl), hb]
  · rw [alookup_append]
    rw [he] at ha
    rw [ha]

/-- Keys absent from `d2` are carried through from `d1` unchanged. -/
theorem pdd_lookup_notin (d1 d2 : Record) (p : Bool) (j : String)
    (hj : alookup d2 j = none) :
    alookup (prepare_data_dict d1 d2 p).1 j = alookup d1 j := by
  obtain ⟨ha, hb⟩ := ppLoop_notin p d2 [] d1 j (forall_of_alookup_eq_none d2 j hj)
  unfold prepare_data_dict
  rw [alookup_append, ha]
  simp only [alookup]
  have hfil := alookup_filterKeys
    (fun k => (alookup (ppLoop p d2 [] d1).1 k).isNone) (ppLoop p d2 [] d1).2 j
  simp only at hfil
  rw [hfil, if_pos (by rw [ha]; rfl), hb]

/-! ## How far a call can disturb its first argument -/

theorem initSeg_self_append (o e : List String) : initSeg o (o ++ e) = true := by
  induction o with
  | nil => rfl
  | cons a xs ih => simp [initSeg, ih]

theorem initSeg_trans (a : List String) : ∀ b c, initSeg a b = true → initSeg b c = true →
    initSeg a c = true := by
  induction a with
  | nil => intro b c _ _; rfl
  | cons x xs ih =>
    intro b c h1 h2
    rcases b with _ | ⟨y, ys⟩
    · exact absurd h1 (by simp [initSeg])
    · rcases c with _ | ⟨z, zs⟩
      · exact absurd h2 (by simp [initSeg])
      · simp only [initSeg, Bool.and_eq_true, decide_eq_true_eq] at h1 h2 ⊢
        exact ⟨h1.1.trans h2.1, ih ys zs h1.2 h2.2⟩

theorem extB_refl (a : Option PValue) : extB a a = true := by
  rcases a with _ | v
  · rfl
  · rcases v with x | o
    · simp [extB, valExt]
    · simp only [extB, valExt]
      have h := initSeg_self_append o []
      simpa using h

theorem extB_trans (a b c : Option PValue) (h1 : extB a b = true) (h2 : extB b c = true) :
    extB a c = true := by
  rcases a with _ | v <;> rcases b with _ | w <;> rcases c with _ | u <;>
    simp [extB] at h1 h2 ⊢
  rcases v with x | o <;> rcases w with y | n <;> rcases u with z | m <;>
    simp [valExt] at h1 h2 ⊢
  · exact h1.trans h2
  · exact initSeg_trans o n m h1 h2

/-- The d2 loop only ever extends list values of `d1` in place; keys and
scalar values are untouched. -/
theorem ppLoop_d1_extends (p : Bool) (l : List (String × PValue)) : ∀ nd d1c : Record,
    ((ppLoop p l nd d1c).2.map Prod.fst = d1c.map Prod.fst) ∧
    ∀ j, extB (alookup d1c j) (alookup (ppLoop p l nd d1c).2 j) = true := by
  induction l with
  | nil => exact fun nd d1c => ⟨rfl, fun j => extB_refl _⟩
  | cons kv rest ih =>
    intro nd d1c
    obtain ⟨k, v⟩ := kv
    rcases hpr : processKeyVal p k (alookup d1c k) v with ⟨e, u⟩
    simp only [ppLoop, hpr]
    rcases u with _ | w
    · rcases e with _ | w' <;> exact ih _ d1c
    · have hns : (processKeyVal p k (alookup d1c k) v).2 ≠ none := by rw [hpr]; simp
      obtain ⟨os, ext, hos, h1f, h2f⟩ :=
        (processKeyVal_snd p k (alookup d1c k) v).resolve_left hns
      have hw : w = PValue.l (os ++ ext) := by
        rw [hpr] at h2f
        simpa using h2f
      have hkeys : (updateFirst k w d1c).map Prod.fst = d1c.map Prod.fst :=
        updateFirst_keys k w d1c
      have hstep : ∀ j, extB (alookup d1c j) (alookup (updateFirst k w d1c) j) = true := by
        intro j
        by_cases hj : j = k
        · subst hj
          rw [alookup_updateFirst_self j w d1c (by rw [hos]; rfl), hos, hw]
          simp [extB, valExt, initSeg_self_append]
        · rw [alookup_updateFirst_ne k j w d1c hj]
          exact extB_refl _
      rcases e with _ | w' <;>
        (obtain ⟨ihk, ihe⟩ := ih _ (updateFirst k w d1c)
         exact ⟨by rw [ihk, hkeys], fun j => extB_trans _ _ _ (hstep j) (ihe j)⟩)

/-! ## Claims about `prepare_data_dict` -/

/-- C1 counterexample: with a list-valued `biolink:id` in `d1`, the merged
record does not keep `d1`'s value — the incoming scalar is appended, so the
claim "the value for a core identity key present in d1 equals d1's value"
fails at this input. -/
theorem C1_counterexample :
    alookup (prepare_data_dict [("biolink:id", PValue.l ["A"])]
      [("biolink:id", PValue.s "B")] true).1 "biolink:id" = some (PValue.l ["A", "B"]) ∧
    ¬ alookup (prepare_data_dict [("biolink:id", PValue.l ["A"])]
      [("biolink:id", PValue.s "B")] true).1 "biolink:id" = some (PValue.l ["A"]) := by
  decide

/-- C1 (amended): for every core identity property key (`biolink:id`,
`biolink:subject`, `biolink:predicate`, `biolink:object`, `biolink:relation`)
present in `d1` with a scalar (non-list) value, `prepare_data_dict` returns a
record whose value for that key equals `d1`'s value — the incoming value from
`d2` is discarded and no exception is raised (the function is total). -/
theorem C1_core_scalar_protected (k a : String) (d1 d2 : Record) (p : Bool)
    (hk : k ∈ CORE_EDGE_PROPERTIES) (h1 : alookup d1 k = some (PValue.s a))
    (hnd : (d2.map Prod.fst).Nodup) :
    alookup (prepare_data_dict d1 d2 p).1 k = some (PValue.s a) := by
  have hcases : k = "biolink:id" ∨ k = "biolink:subject" ∨ k = "biolink:predicate" ∨
      k = "biolink:object" ∨ k = "biolink:relation" := by
    simpa [CORE_EDGE_PROPERTIES] using hk
  rcases hd2 : alookup d2 k with _ | v
  · rw [pdd_lookup_notin d1 d2 p k hd2, h1]
  · rw [pdd_lookup d1 d2 p k v hnd hd2, h1]
    rcases hcases with rfl | rfl | rfl | rfl | rfl <;> rfl

/-- C1 witness: merging `{'biolink:id': 'A'}` with `{'biolink:id': 'B'}`
keeps `'A'`. -/
theorem C1_witness :
    alookup (prepare_data_dict [("biolink:id", PValue.s "A")]
      [("biolink:id", PValue.s "B")] true).1 "biolink:id" = some (PValue.s "A") :=
  C1_core_scalar_protected "biolink:id" "A" _ _ true (by decide) rfl (by decide)

/-- C2 counterexample: the call mutates `d1` in place — after merging
`{'biolink:category': ['X']}` with `{'biolink:category': ['Y']}`, `d1`'s list
has become `['X', 'Y']`, so "d1 unmodified" fails at this input. -/
theorem C2_counterexample :
    (prepare_data_dict [("biolink:category", PValue.l ["X"])]
      [("biolink:category", PValue.l ["Y"])] true).2
      = [("biolink:category", PValue.l ["X", "Y"])] ∧
    ([("biolink:category", PValue.l ["X", "Y"])] : Record)
      ≠ [("biolink:category", PValue.l ["X"])] := by
  decide

/-- C2 (amended): `prepare_data_dict` returns a new merged record and never
modifies `d2`; `d1` neither gains nor loses keys and its scalar values are
untouched, but a list value of `d1` may be extended in place (it ends as the
original list plus appended elements) because the merged list aliases it. -/
theorem C2_d1_keys_kept_lists_only_extended (d1 d2 : Record) (p : Bool) :
    ((prepare_data_dict d1 d2 p).2.map Prod.fst = d1.map Prod.fst) ∧
    ∀ j, extB (alookup d1 j) (alookup (prepare_data_dict d1 d2 p).2 j) = true :=
  ppLoop_d1_extends p d2 [] d1

/-- C3 counterexample: merging category `['X']` with incoming `['Y', 'Y']`
yields `['X', 'Y', 'Y']`, not the de-duplicated ordered union `['X', 'Y']` —
the comprehension filters only against the existing values, so duplicates
inside the incoming list survive. -/
theorem C3_counterexample :
    alookup (prepare_data_dict [("biolink:category", PValue.l ["X"])]
      [("biolink:category", PValue.l ["Y", "Y"])] true).1 "biolink:category"
      = some (PValue.l ["X", "Y", "Y"]) ∧
    specOrderedUnion ["X"] ["Y", "Y"] = ["X", "Y"] ∧
    (PValue.l ["X", "Y", "Y"] : PValue) ≠ PValue.l ["X", "Y"] := by
  decide

/-- C3 (amended): for a key declared multivalued, present in both records
with list values, the merged value is `d1`'s list followed by those elements
of `d2`'s list not occurring in `d1`'s list, in their original order —
duplicates already inside either list are retained, not removed. -/
theorem C3_multivalued_list_merge (k : String) (a b : List String) (d1 d2 : Record) (p : Bool)
    (hmv : alookup is_property_multivalued k = some true)
    (h1 : alookup d1 k = some (PValue.l a)) (h2 : alookup d2 k = some (PValue.l b))
    (hnd : (d2.map Prod.fst).Nodup) :
    alookup (prepare_data_dict d1 d2 p).1 k
      = some (PValue.l (a ++ b.filter (fun x => !(a.contains x)))) := by
  rw [pdd_lookup d1 d2 p k (PValue.l b) hnd h2, h1]
  simp [processKeyVal, hmv, mergeNoDup]

/-- C3 witness: category `['X']` merged with `['Y']` gives `['X', 'Y']`, and
`['X']` merged with `['X']` gives `['X']`. -/
theorem C3_witness :
    alookup (prepare_data_dict [("biolink:category", PValue.l ["X"])]
      [("biolink:category", PValue.l ["Y"])] true).1 "biolink:category"
      = some (PValue.l ["X", "Y"]) ∧
    alookup (prepare_data_dict [("biolink:category", PValue.l ["X"])]
      [("biolink:category", PValue.l ["X"])] true).1 "biolink:category"
      = some (PValue.l ["X"]) := by
  constructor
  · exact C3_multivalued_list_merge "biolink:category" ["X"] ["Y"] _ _ true rfl rfl rfl
      (by decide)
  · exact C3_multivalued_list_merge "biolink:category" ["X"] ["X"] _ _ true rfl rfl rfl
      (by decide)

/-- C7 counterexample: for single-valued non-core `biolink:description` with
a list value in `d1`, `preserve=false` does not make the incoming value
replace the existing one — the incoming scalar is appended instead. -/
theorem C7_counterexample :
    alookup (prepare_data_dict [("biolink:description", PValue.l ["A"])]
      [("biolink:description", PValue.s "B")] false).1 "biolink:description"
      = some (PValue.l ["A", "B"]) ∧
    (some (PValue.l ["A", "B"]) : Option PValue) ≠ some (PValue.s "B") := by
  decide

/-- C7 (amended): for a key declared single-valued that is not a core
property and is present in both records with a scalar existing value in `d1`,
`preserve=false` maps the key to `d2`'s incoming value alone, while
`preserve=true` with a scalar incoming value maps it to the two-element list
`[old, new]`. -/
theorem C7_single_valued_scalar_merge (k a : String) (v : PValue) (d1 d2 : Record)
    (hmv : alookup is_property_multivalued k = some false)
    (hcore : isCore k = false)
    (h1 : alookup d1 k = some (PValue.s a)) (h2 : alookup d2 k = some v)
    (hnd : (d2.map Prod.fst).Nodup) :
    alookup (prepare_data_dict d1 d2 false).1 k = some v ∧
    (∀ b, v = PValue.s b →
      alookup (prepare_data_dict d1 d2 true).1 k = some (PValue.l [a, b])) := by
  constructor
  · rw [pdd_lookup d1 d2 false k v hnd h2, h1]
    simp [processKeyVal, hmv, hcore]
  · intro b hb
    subst hb
    rw [pdd_lookup d1 d2 true k (PValue.s b) hnd h2, h1]
    simp [processKeyVal, hmv, hcore, mergeMixed]

/-- C7 witness: description `'A'` merged with `'B'` gives `'B'` under
`preserve=false` and `['A', 'B']` under `preserve=true`. -/
theorem C7_witness :
    alookup (prepare_data_dict [("biolink:description", PValue.s "A")]
      [("biolink:description", PValue.s "B")] false).1 "biolink:description"
      = some (PValue.s "B") ∧
    alookup (prepare_data_dict [("biolink:description", PValue.s "A")]
      [("biolink:description", PValue.s "B")] true).1 "biolink:description"
      = some (PValue.l ["A", "B"]) := by
  have h := C7_single_valued_scalar_merge "biolink:description" "A" (PValue.s "B")
    [("biolink:description", PValue.s "A")] [("biolink:description", PValue.s "B")]
    rfl rfl rfl rfl (by decide)
  exact ⟨h.1, h.2 "B" rfl⟩

/-! ## Claims about `is_curie` -/

theorem takeWhile_colon_split (p q : List Char)
    (hp : ∀ c ∈ p, curieHeadOk c = true) :
    (p ++ ':' :: q).takeWhile (fun c => !(c = ':')) = p ∧
    (p ++ ':' :: q).dropWhile (fun c => !(c = ':')) = ':' :: q := by
  induction p with
  | nil =>
    constructor
    · rw [List.nil_append, List.takeWhile_cons_of_neg (by simp)]
    · rw [List.nil_append, List.dropWhile_cons_of_neg (by simp)]
  | cons a p' ih =>
    have ha : curieHeadOk a = true := hp a (by simp)
    have hane : ¬ a = ':' := by
      intro h
      rw [h] at ha
      simp [curieHeadOk] at ha
    have hp' : ∀ c ∈ p', curieHeadOk c = true := fun c hc => hp c (by simp [hc])
    obtain ⟨h1, h2⟩ := ih hp'
    constructor
    · rw [List.cons_append, List.takeWhile_cons_of_pos (by simpa using hane), h1]
    · rw [List.cons_append, List.dropWhile_cons_of_pos (by simpa using hane), h2]

theorem curieCore_iff (l : List Char) : curieCore l = true ↔ CurieShape l := by
  constructor
  · intro h
    unfold curieCore at h
    rcases hd : l.dropWhile (fun c => !(c = ':')) with _ | ⟨c, q⟩
    · rw [hd] at h
      exact absurd h (by simp)
    · rw [hd] at h
      simp only [Bool.and_eq_true, decide_eq_true_eq] at h
      obtain ⟨⟨⟨hc, hall⟩, hne⟩, htail⟩ := h
      subst hc
      refine ⟨l.takeWhile (fun c => !(c = ':')), q, ?_, ?_, ?_, ?_⟩
      · rw [← hd, List.takeWhile_append_dropWhile]
      · exact fun c hc => List.all_eq_true.mp hall c hc
      · intro hq
        rw [hq] at hne
        simp at hne
      · exact fun c hc => List.all_eq_true.mp htail c hc
  · rintro ⟨p, q, rfl, hp, hq0, hq⟩
    obtain ⟨htk, hdr⟩ := takeWhile_colon_split p q hp
    unfold curieCore
    rw [hdr, htk]
    have hqe : (!q.isEmpty) = true := by
      rcases q with _ | ⟨x, xs⟩
      · exact absurd rfl hq0
      · rfl
    simp [hqe, List.all_eq_true.mpr hp, List.all_eq_true.mpr hq]

/-- C4 counterexample: `"a:b/c"` matches the documented CURIE pattern
(non-space/non-angle-bracket/non-colon head, one colon, non-space/non-colon
tail) but `is_curie` rejects it, because the regex tail class `[^/ :]` also
excludes the slash. -/
theorem C4_counterexample :
    docCuriePat ("a:b/c".data) = true ∧ is_curie "a:b/c" = false := by
  decide

/-- C4 (amended): `is_curie(s)` is true iff `s` consists of zero or more
characters none of which is a space, `<`, `(`, `)`, `>` or colon, then one
colon, then one or more characters none of which is `/`, space or colon —
optionally followed by one trailing newline (an artifact of the `$` anchor). -/
theorem C4_is_curie_characterization (s : String) :
    is_curie s = true ↔
      (CurieShape s.data ∨ ∃ t, s.data = t ++ ['\n'] ∧ CurieShape t) := by
  unfold is_curie
  rw [Bool.or_eq_true]
  refine or_congr (curieCore_iff s.data) ?_
  rcases hr : s.data.reverse with _ | ⟨c, t⟩
  · have hnil : s.data = [] := by
      have h := congrArg List.reverse hr
      simpa using h
    simp only [hr]
    constructor
    · intro h
      exact absurd h (by simp)
    · rintro ⟨u, hu, _⟩
      rw [hnil] at hu
      exact absurd hu.symm (by simp)
  · have hsd : s.data = t.reverse ++ [c] := by
      have h := congrArg List.reverse hr
      simpa using h
    simp only [hr, Bool.and_eq_true, decide_eq_true_eq]
    constructor
    · rintro ⟨hc, hcc⟩
      exact ⟨t.reverse, by rw [hsd, hc], (curieCore_iff t.reverse).mp hcc⟩
    · rintro ⟨u, hu, hshape⟩
      rw [hsd] at hu
      obtain ⟨h1, h2⟩ := List.append_inj' hu rfl
      have hc : c = '\n' := by
        injection h2
      refine ⟨hc, (curieCore_iff t.reverse).mpr ?_⟩
      rw [h1]
      exact hshape

/-- C4 witness: `"a:b"` is accepted and therefore has the amended shape. -/
theorem C4_witness :
    CurieShape ("a:b".data) ∨ ∃ t, ("a:b".data) = t ++ ['\n'] ∧ CurieShape t :=
  (C4_is_curie_characterization "a:b").mp (by decide)

/-! ## Claims about `apply_node_filters` -/

theorem nodePass_single (allowed : List String) (nd : Record) (val : PValue)
    (h : alookup nd "biolink:category" = some val) :
    nodePassFilters [("biolink:category", allowed)] nd
      = some (allowed.any (fun x => valueHas val x)) := by
  rcases allowed with _ | ⟨x, xs⟩
  · rfl
  · unfold nodePassFilters passLoop
    simp [h, passLoop]

theorem collectFails_all_cats (allowed : List String) (g : Graph)
    (hg : ∀ kv ∈ g, hasListCat kv.2 = true) :
    collectFails [("biolink:category", allowed)] g
      = some ((g.filter (fun kv => !(catIntersects allowed kv.2))).map Prod.fst) := by
  induction g with
  | nil => rfl
  | cons kv rest ih =>
    obtain ⟨n, nd⟩ := kv
    have hlc : hasListCat nd = true := hg (n, nd) (by simp)
    rcases hcat : alookup nd "biolink:category" with _ | v
    · rw [hasListCat, hcat] at hlc
      exact absurd hlc (by simp)
    · rcases v with y | cs
      · rw [hasListCat, hcat] at hlc
        exact absurd hlc (by simp)
      · have hpass : nodePassFilters [("biolink:category", allowed)] nd
            = some (allowed.any (fun x => cs.contains x)) :=
          nodePass_single allowed nd (PValue.l cs) hcat
        have hci : catIntersects allowed nd = allowed.any (fun x => cs.contains x) := by
          rw [catIntersects, hcat]
        have hrest : ∀ kv ∈ rest, hasListCat kv.2 = true :=
          fun kv hkv => hg kv (by simp [hkv])
        unfold collectFails
        rw [hpass, ih hrest, List.filter_cons]
        cases hb : allowed.any (fun x => cs.contains x)
        · have hcond : (!catIntersects allowed (n, nd).2) = true := by
            show (!catIntersects allowed nd) = true
            rw [hci, hb]
            rfl
          simp [hcond]
        · have hcond : ¬ ((!catIntersects allowed (n, nd).2) = true) := by
            show ¬ ((!catIntersects allowed nd) = true)
            rw [hci, hb]
            simp
          simp [hcond]

theorem foldl_removeNode (fails : List String) : ∀ g : Graph,
    fails.foldl removeNode g = g.filter (fun kv => !(fails.contains kv.1)) := by
  induction fails with
  | nil =>
    intro g
    simp [List.foldl]
  | cons n ns ih =>
    intro g
    rw [List.foldl_cons, ih (removeNode g n)]
    unfold removeNode
    rw [List.filter_filter]
    apply List.filter_congr
    intro kv _
    by_cases h : kv.1 = n
    · subst h
      simp
    · simp [h]

theorem filter_not_fails (P : String × Record → Bool) (g : Graph)
    (hids : (g.map Prod.fst).Nodup) :
    g.filter (fun kv =>
        !(((g.filter (fun kv => !(P kv))).map Prod.fst).contains kv.1))
      = g.filter P := by
  apply List.filter_congr
  intro kv hkv
  by_cases hP : P kv = true
  · rw [hP]
    have hc : ¬ kv.1 ∈ (g.filter (fun kv => !(P kv))).map Prod.fst := by
      intro hmem
      obtain ⟨q, hq, hq1⟩ := List.mem_map.mp hmem
      obtain ⟨hqg, hqP⟩ := List.mem_filter.mp hq
      have hqkv : q = kv := List.inj_on_of_nodup_map hids hqg hkv hq1
      rw [hqkv, hP] at hqP
      exact absurd hqP (by simp)
    have hcf : ((g.filter (fun kv => !(P kv))).map Prod.fst).contains kv.1 = false :=
      Bool.eq_false_iff.mpr (fun h => hc (List.elem_iff.mp h))
    rw [hcf]
    rfl
  · rw [Bool.not_eq_true] at hP
    have hmem : kv.1 ∈ (g.filter (fun kv => !(P kv))).map Prod.fst :=
      List.mem_map.mpr ⟨kv, List.mem_filter.mpr ⟨hkv, by rw [hP]; rfl⟩, rfl⟩
    have hct : ((g.filter (fun kv => !(P kv))).map Prod.fst).contains kv.1 = true :=
      List.elem_iff.mpr hmem
    rw [hct, hP]
    rfl

/-- C5: with a `{'biolink:category': allowed}` filter, on a graph whose
nodes all carry a list-valued `biolink:category` (and distinct node ids), the
two-phase removal deletes exactly the nodes whose category list has empty
intersection with the allowed set and keeps every node whose categories meet
it. -/
theorem C5_category_filter_removes_exactly (allowed : List String) (g : Graph)
    (hids : (g.map Prod.fst).Nodup)
    (hcats : ∀ kv ∈ g, hasListCat kv.2 = true) :
    apply_node_filters g [("biolink:category", allowed)]
      = some (g.filter (fun kv => catIntersects allowed kv.2)) := by
  unfold apply_node_filters
  rw [collectFails_all_cats allowed g hcats]
  simp only [foldl_removeNode]
  rw [filter_not_fails (fun kv => catIntersects allowed kv.2) g hids]

/-- C5 witness: nodes tagged `{A}` and `{B}` filtered by `{A}` — exactly the
`{B}` node is removed. -/
theorem C5_witness :
    apply_node_filters
      [("n1", [("biolink:category", PValue.l ["A"])]),
       ("n2", [("biolink:category", PValue.l ["B"])])]
      [("biolink:category", ["A"])]
      = some [("n1", [("biolink:category", PValue.l ["A"])])] := by
  have h := C5_category_filter_removes_exactly ["A"]
    [("n1", [("biolink:category", PValue.l ["A"])]),
     ("n2", [("biolink:category", PValue.l ["B"])])]
    (by decide) (by decide)
  rw [h]
  rfl

/-- The per-node filter loop raises (returns `none`) whenever some
`biolink:category` filter entry has a non-empty allowed collection and the
node record lacks the key. -/
theorem passLoop_err (nd : Record) (hmiss : alookup nd "biolink:category" = none) :
    ∀ fs : List (String × List String), ∀ acc : Bool,
    (∃ v, ("biolink:category", v) ∈ fs ∧ v ≠ []) →
    passLoop nd fs acc = none := by
  intro fs
  induction fs with
  | nil =>
    rintro acc ⟨v, hv, _⟩
    exact absurd hv (by simp)
  | cons kv rest ih =>
    rintro acc ⟨v, hv, hvne⟩
    obtain ⟨k, w⟩ := kv
    rcases List.mem_cons.mp hv with heq | hmem
    · injection heq with h1 h2
      subst h1
      subst h2
      unfold passLoop
      rw [if_pos rfl]
      rcases v with _ | ⟨x, xs⟩
      · exact absurd rfl hvne
      · simp [hmiss]
    · unfold passLoop
      by_cases hk : k = "biolink:category"
      · subst hk
        rw [if_pos rfl]
        rcases w with _ | ⟨x, xs⟩
        · exact ih _ ⟨v, hmem, hvne⟩
        · simp [hmiss]
      · rw [if_neg hk]
        exact ih _ ⟨v, hmem, hvne⟩

/-- Phase one aborts with the error of the first failing node. -/
theorem collectFails_err (fs : List (String × List String)) : ∀ g : Graph,
    (∃ kv ∈ g, nodePassFilters fs kv.2 = none) → collectFails fs g = none := by
  intro g
  induction g with
  | nil =>
    rintro ⟨kv, hkv, _⟩
    exact absurd hkv (by simp)
  | cons kv rest ih =>
    rintro ⟨q, hq, herr⟩
    obtain ⟨n, nd⟩ := kv
    rcases List.mem_cons.mp hq with heq | hmem
    · subst heq
      unfold collectFails
      rw [herr]
    · unfold collectFails
      rcases hp : nodePassFilters fs nd with _ | b
      · rfl
      · rw [ih ⟨q, hmem, herr⟩]

/-- C9 counterexample: a node lacking `biolink:category` filtered with
`{'biolink:category': set()}` raises nothing — `any` over the empty allowed
collection never evaluates `node_data[k]`, the node is treated as failing and
removed. -/
theorem C9_counterexample :
    apply_node_filters [("n1", [])] [("biolink:category", [])] = some [] ∧
    (some [] : Option Graph) ≠ none := by
  decide

/-- C9 (amended): whenever the node filters contain a `biolink:category`
entry with a non-empty allowed collection and some node's record lacks that
key, `apply_node_filters` propagates the `KeyError` (modelled as `none`)
instead of treating the node as passing or failing. -/
theorem C9_missing_category_key_errors (g : Graph) (fs : List (String × List String))
    (v : List String) (hv : ("biolink:category", v) ∈ fs) (hvne : v ≠ [])
    (n : String) (nd : Record) (hmem : (n, nd) ∈ g)
    (hmiss : alookup nd "biolink:category" = none) :
    apply_node_filters g fs = none := by
  unfold apply_node_filters
  rw [collectFails_err fs g ⟨(n, nd), hmem, passLoop_err nd hmiss fs true ⟨v, hv, hvne⟩⟩]

/-- C9 witness: one node with an empty record, filter `{'biolink:category':
{'A'}}` — the call errors. -/
theorem C9_witness :
    apply_node_filters [("n1", ([] : Record))] [("biolink:category", ["A"])] = none :=
  C9_missing_category_key_errors [("n1", [])] [("biolink:category", ["A"])]
    ["A"] (by simp) (by simp) "n1" [] (by simp) rfl

/-! ## Claims about `contract`, `expand` and `get_toolkit` -/

/-- C6: `contract` returns the first contraction found in the caller's
(non-empty) prefix maps; on a miss there with `fallback` true, the first
contraction from the default maps; and the original URI unchanged when every
consulted map misses — the function is total, so no exception is possible. -/
theorem C6_contract_first_match_or_identity {M : Type}
    (cu : String → List M → List String) (dmaps : List M) (uri : String)
    (ms : List M) (fb : Bool) :
    (∀ c rest, ms ≠ [] → cu uri ms = c :: rest →
      contract cu dmaps uri (some ms) fb = c) ∧
    (∀ c rest, ms ≠ [] → cu uri ms = [] → fb = true → cu uri dmaps = c :: rest →
      contract cu dmaps uri (some ms) fb = c) ∧
    (ms ≠ [] → cu uri ms = [] → cu uri dmaps = [] →
      contract cu dmaps uri (some ms) fb = uri) ∧
    (cu uri dmaps = [] → contract cu dmaps uri none fb = uri) := by
  refine ⟨?_, ?_, ?_, ?_⟩
  · intro c rest hne h
    rcases ms with _ | ⟨m, mrest⟩
    · exact absurd rfl hne
    · simp [contract, h]
  · intro c rest hne h hfb hd
    rcases ms with _ | ⟨m, mrest⟩
    · exact absurd rfl hne
    · simp [contract, h, hfb, hd, firstOr]
  · intro hne h hd
    rcases ms with _ | ⟨m, mrest⟩
    · exact absurd rfl hne
    · cases fb <;> simp [contract, h, hd, firstOr]
  · intro hd
    simp [contract, hd, firstOr]

/-- C6 witness: all four behaviours exercised on a concrete `contract_uri`. -/
theorem C6_witness :
    contract cuEx [0] "u" (some [1]) true = "a:1" ∧
    contract cuEx [1] "u" (some [2]) true = "a:1" ∧
    contract cuEx [0] "u" (some [2]) false = "u" ∧
    contract cuEx [0] "u" none true = "u" := by
  refine ⟨?_, ?_, ?_, ?_⟩
  · exact (C6_contract_first_match_or_identity cuEx [0] "u" [1] true).1 "a:1" []
      (by simp) rfl
  · exact (C6_contract_first_match_or_identity cuEx [1] "u" [2] true).2.1 "a:1" []
      (by simp) rfl rfl rfl
  · exact (C6_contract_first_match_or_identity cuEx [0] "u" [2] false).2.2.1
      (by simp) rfl rfl
  · exact (C6_contract_first_match_or_identity cuEx [0] "u" [] true).2.2.2 rfl

/-- C10: both `contract` and `expand` treat an empty caller-supplied prefix
map list exactly like an absent one — the caller branch is skipped and only
the default maps are consulted, whatever the fallback flag. -/
theorem C10_empty_maps_like_none {M : Type}
    (cu : String → List M → List String) (eu : String → List M → String)
    (dmaps : List M) (s : String) (fb : Bool) :
    contract cu dmaps s (some []) fb = contract cu dmaps s none fb ∧
    expand eu dmaps s (some []) fb = expand eu dmaps s none fb :=
  ⟨rfl, rfl⟩

/-- C8: `get_toolkit` is a process-wide singleton accessor — the first call
builds the instance from the supplied (non-empty) schema or the configured
default, every later call returns exactly the cached instance and ignores its
own schema argument. -/
theorem C8_get_toolkit_singleton (ds : String) (s1 s2 : Option String) :
    (get_toolkit ds (get_toolkit ds none s1).2 s2).1 = (get_toolkit ds none s1).1 ∧
    (get_toolkit ds (get_toolkit ds none s1).2 s2).2 = (get_toolkit ds none s1).2 ∧
    (s1 = none → (get_toolkit ds none s1).1.schema = ds) ∧
    (∀ s, s1 = some s → s ≠ "" → (get_toolkit ds none s1).1.schema = s) := by
  refine ⟨?_, ?_, ?_, ?_⟩
  · rcases s1 with _ | s <;> rfl
  · rcases s1 with _ | s <;> rfl
  · intro h
    subst h
    rfl
  · intro s h hne
    subst h
    show (if schemaFalsy (some s) then ds else (some s).getD ds) = s
    have hf : schemaFalsy (some s) = false := by
      simp [schemaFalsy, hne]
    rw [hf]
    rfl

/-- C8 witness: two argument-less calls return the identical instance, and a
first call with schema `"sch"` records it. -/
theorem C8_witness :
    (get_toolkit "dflt" (get_toolkit "dflt" none none).2 none).1
      = (get_toolkit "dflt" none none).1 ∧
    (get_toolkit "dflt" none none).1.schema = "dflt" ∧
    (get_toolkit "dflt" none (some "sch")).1.schema = "sch" := by
  refine ⟨?_, ?_, ?_⟩
  · exact (C8_get_toolkit_singleton "dflt" none none).1
  · exact (C8_get_toolkit_singleton "dflt" none none).2.2.1 rfl
  · exact (C8_get_toolkit_singleton "dflt" (some "sch") none).2.2.2 "sch" rfl
      (by decide)
